import Mathlib

/-!
Shallow embedding of `src/notebooks/kinematic_arm_simulation_notebook.ipynb`
(a planar kinematic-arm simulation with a numerical inverse-kinematics
solver).

Modelling choices:
* Python floats are modelled as real numbers (`ℝ`); numpy arrays of angles
  and of link lengths are modelled as `List ℝ`; 2-D points as `ℝ × ℝ`.
* The module-level globals (`num_links`, `link_lengths`, `angles`, `target`,
  `reached_target`, `movement_count`) are threaded explicitly: the functions
  that read or assign them take them as arguments and return the updated
  values, and the `SimState` record packages all six for the UI handlers.
  The program keeps `num_links = len(link_lengths) = len(angles)` invariant
  (the initial cell, `update_num_links` and `inverse_kinematics` all preserve
  it), so the embedding passes the joint count `n` alongside the lists.
* `inverse_kinematics` is only ever called with its default `alpha=0.1`,
  `max_iters=100`; the `alpha` parameter is kept explicit, the iteration
  budget is modelled as fuel for the `for _ in range(max_iters)` loop.
* The real-valued primitives (`Real.cos`, `Real.sin`, `Real.sqrt`) are
  noncomputable, so the embedding is noncomputable; concrete evaluations in
  witnesses are carried out with `simp`/`norm_num`.
-/

noncomputable section

open Real

/-- Model of `np.linalg.norm` on a 2-vector. -/
def norm2 (p : ℝ × ℝ) : ℝ := Real.sqrt (p.1 ^ 2 + p.2 ^ 2)

/-- Pointwise difference of 2-vectors (numpy array subtraction, as in
`target - end_effector` and `end_effector_temp - target`). -/
def psub (p q : ℝ × ℝ) : ℝ × ℝ := (p.1 - q.1, p.2 - q.2)

/-- Position appended at step `k` of the loop in `forward_kinematics`:
`x.append(x[-1] + link_lengths[i] * np.cos(np.sum(angles[:i+1])))` and the
`sin` analogue for `y`.  `fkPos lengths angles k` is the `k`-th entry of the
position sequence (`(x[k], y[k])`), starting from the base `(0, 0)`. -/
def fkPos (lengths angles : List ℝ) : Nat → ℝ × ℝ
  | 0 => (0, 0)
  | k + 1 =>
      ((fkPos lengths angles k).1
          + lengths.getD k 0 * Real.cos ((angles.take (k + 1)).sum),
       (fkPos lengths angles k).2
          + lengths.getD k 0 * Real.sin ((angles.take (k + 1)).sum))

/-- Model of `forward_kinematics(angles)`: the Python function returns the
two lists `x, y` of length `num_links + 1`; here they are zipped into one
list of positions.  The globals `link_lengths` and `num_links`
(`= len(link_lengths)`) are the explicit `lengths` argument. -/
def forward_kinematics (lengths angles : List ℝ) : List (ℝ × ℝ) :=
  (List.range (lengths.length + 1)).map (fkPos lengths angles)

/-- Model of `np.array([x[-1], y[-1]])`: the end effector is the last entry
of the position sequence. -/
def endEffector (lengths angles : List ℝ) : ℝ × ℝ :=
  fkPos lengths angles lengths.length

/-- Model of `optimize_link_lengths(target, angles)`:
`total_distance = np.linalg.norm(target); link_length = total_distance /
num_links; return [link_length] * num_links`.  The `angles` parameter of the
Python function is unused and dropped; the global `num_links` is the
explicit argument `n`. -/
def optimize_link_lengths (n : Nat) (target : ℝ × ℝ) : List ℝ :=
  List.replicate n (norm2 target / n)

/-- One step of the inner `for i in range(num_links)` loop of
`inverse_kinematics`: perturb a copy of the current angles at joint `i` by
`0.01`, measure the perturbed end-effector-to-target distance against the
baseline `errNorm` (the `np.linalg.norm(error)` computed at the start of the
outer iteration), and subtract `alpha` times the finite-difference quotient
from joint `i` in place. -/
def gradUpdate (ls : List ℝ) (alpha : ℝ) (t : ℝ × ℝ) (errNorm : ℝ)
    (a : List ℝ) (i : Nat) : List ℝ :=
  let a1 := a.set i (a.getD i 0 + 0.01)
  let gradient := (norm2 (psub (endEffector ls a1) t) - errNorm) / 0.01
  a.set i (a.getD i 0 - alpha * gradient)

/-- First `k` steps of the inner joint loop (joints `0, …, k-1` processed,
in order, each seeing the in-place updates made for the earlier joints). -/
def sweepUpTo (ls : List ℝ) (alpha : ℝ) (t : ℝ × ℝ) (errNorm : ℝ)
    (k : Nat) (a : List ℝ) : List ℝ :=
  (List.range k).foldl (gradUpdate ls alpha t errNorm) a

/-- The whole inner `for i in range(num_links)` loop of one outer iteration
of `inverse_kinematics` (the global `num_links` equals `ls.length`). -/
def gradSweep (ls : List ℝ) (alpha : ℝ) (t : ℝ × ℝ) (errNorm : ℝ)
    (a : List ℝ) : List ℝ :=
  sweepUpTo ls alpha t errNorm ls.length a

/-- The outer `for _ in range(max_iters)` loop of `inverse_kinematics`,
with the remaining iteration count as fuel.  Each iteration recomputes the
end effector, the error and its norm; if the norm is below `1e-1` it sets
`reached_target = True` and breaks, otherwise it sets
`reached_target = False` and runs the joint sweep.  The second component of
the result is the final value of the global `reached_target`. -/
def ikLoop (ls : List ℝ) (alpha : ℝ) (t : ℝ × ℝ) :
    Nat → List ℝ → Bool → List ℝ × Bool
  | 0, a, reached => (a, reached)
  | fuel + 1, a, _ =>
      let errNorm := norm2 (psub t (endEffector ls a))
      if errNorm < 1e-1 then (a, true)
      else ikLoop ls alpha t fuel (gradSweep ls alpha t errNorm a) false

/-- Model of `inverse_kinematics(target, angles, alpha=0.1, max_iters=100)`
at its (only) call pattern `alpha = 0.1`, `max_iters = 100`.  Inputs include
the globals it reads or assigns: the current `link_lengths` `ls`, the
current `reached_target` flag and `num_links = n`.  The result triple is
(returned angles, final `link_lengths`, final `reached_target`).  When the
target is `none` the function returns the angles at once and touches no
global. -/
def inverse_kinematics (target : Option (ℝ × ℝ)) (a : List ℝ)
    (ls : List ℝ) (reached : Bool) (n : Nat) : List ℝ × List ℝ × Bool :=
  match target with
  | none => (a, ls, reached)
  | some t =>
      let ls2 := optimize_link_lengths n t
      let r := ikLoop ls2 0.1 t 100 a reached
      (r.1, ls2, r.2)

/-- The six module-level globals of the notebook. -/
structure SimState where
  num_links : Nat
  link_lengths : List ℝ
  angles : List ℝ
  target : Option (ℝ × ℝ)
  reached_target : Bool
  movement_count : Nat

/-- Model of the animation callback `update(frame)` restricted to its state
effect (the drawing calls touch no solver state): if `reached_target` is
false it runs the solver once and increments `movement_count`. -/
def update (s : SimState) : SimState :=
  if s.reached_target then s
  else
    let r := inverse_kinematics s.target s.angles s.link_lengths
      s.reached_target s.num_links
    { s with
        angles := r.1
        link_lengths := r.2.1
        reached_target := r.2.2
        movement_count := s.movement_count + 1 }

/-- Model of the slider callback `update_num_links(val)`: it overwrites all
six globals (`num_links = int(val)`, `link_lengths = [2] * num_links`,
`angles = np.radians([45] * num_links)`, `target = np.array([3, 1])`,
`reached_target = False`, `movement_count = 0`) and then calls `update(0)`.
It reads none of the previous state, so the embedding is a function of the
slider value alone. -/
def update_num_links (val : Nat) : SimState :=
  update
    { num_links := val
      link_lengths := List.replicate val 2
      angles := List.replicate val (Real.pi / 4)
      target := some (3, 1)
      reached_target := false
      movement_count := 0 }

/-- Modelled from the claim wording of C1, not from the source: a sweep in
which every joint `i` is perturbed around the angle vector `a` as it stood
at the start of the iteration (all other joints at their start-of-iteration
values), and the update for joint `i` subtracts `alpha` times the
finite-difference quotient from `a`'s entry `i`. -/
def jacobiSweep (ls : List ℝ) (alpha : ℝ) (t : ℝ × ℝ) (errNorm : ℝ)
    (a : List ℝ) : List ℝ :=
  (List.range a.length).map (fun i =>
    a.getD i 0 - alpha *
      ((norm2 (psub (endEffector ls (a.set i (a.getD i 0 + 0.01))) t)
          - errNorm) / 0.01))

/-- The per-joint sweep as the amended C1 describes it: when joint `i` is
processed, joints before `i` hold the values already updated earlier in the
same iteration and joints from `i` on still hold their start-of-iteration
values (`sweepUpTo … i a`); joint `i` is perturbed by `0.01` on a copy of
that intermediate vector, the finite-difference quotient is taken against
the start-of-iteration distance `errNorm`, and entry `i` is decreased by
`alpha` times the quotient. -/
def seqSweep (ls : List ℝ) (alpha : ℝ) (t : ℝ × ℝ) (errNorm : ℝ)
    (a : List ℝ) : List ℝ :=
  (List.range a.length).map (fun i =>
    let b := sweepUpTo ls alpha t errNorm i a
    b.getD i 0 - alpha *
      ((norm2 (psub (endEffector ls (b.set i (b.getD i 0 + 0.01))) t)
          - errNorm) / 0.01))

/-- The finite-difference quotient the solver actually uses for joint `i`
in one iteration: measured on a copy of the partially updated vector
`sweepUpTo … i a` perturbed at `i`, against the start-of-iteration
distance `errNorm`. -/
def gradOfJoint (ls : List ℝ) (alpha : ℝ) (t : ℝ × ℝ) (errNorm : ℝ)
    (a : List ℝ) (i : Nat) : ℝ :=
  let b := sweepUpTo ls alpha t errNorm i a
  (norm2 (psub (endEffector ls (b.set i (b.getD i 0 + 0.01))) t)
      - errNorm) / 0.01

/-! Helper lemmas about `List.set`, `List.getD` and the sweep. -/

lemma getD_set_self (l : List ℝ) (i : Nat) (x : ℝ) (h : i < l.length) :
    (l.set i x).getD i 0 = x := by
  have h2 : i < (l.set i x).length := by simpa using h
  rw [List.getD_eq_getElem _ _ h2, List.getElem_set_self]

lemma getD_set_ne (l : List ℝ) (i j : Nat) (x : ℝ) (hij : i ≠ j) :
    (l.set i x).getD j 0 = l.getD j 0 := by
  by_cases hj : j < l.length
  · have h2 : j < (l.set i x).length := by simpa using hj
    rw [List.getD_eq_getElem _ _ h2, List.getD_eq_getElem _ _ hj,
      List.getElem_set_ne hij]
  · have hj' : l.length ≤ j := Nat.le_of_not_lt hj
    rw [List.getD_eq_default _ _ (by simpa using hj'),
      List.getD_eq_default _ _ hj']

lemma gradUpdate_length (ls : List ℝ) (alpha : ℝ) (t : ℝ × ℝ) (e : ℝ)
    (a : List ℝ) (i : Nat) : (gradUpdate ls alpha t e a i).length = a.length := by
  simp [gradUpdate]

lemma gradUpdate_getD_ne (ls : List ℝ) (alpha : ℝ) (t : ℝ × ℝ) (e : ℝ)
    (a : List ℝ) (i j : Nat) (hij : i ≠ j) :
    (gradUpdate ls alpha t e a i).getD j 0 = a.getD j 0 := by
  simp only [gradUpdate]
  exact getD_set_ne _ _ _ _ hij

lemma sweepUpTo_zero (ls : List ℝ) (alpha : ℝ) (t : ℝ × ℝ) (e : ℝ)
    (a : List ℝ) : sweepUpTo ls alpha t e 0 a = a := rfl

lemma sweepUpTo_succ (ls : List ℝ) (alpha : ℝ) (t : ℝ × ℝ) (e : ℝ)
    (k : Nat) (a : List ℝ) :
    sweepUpTo ls alpha t e (k + 1) a
      = gradUpdate ls alpha t e (sweepUpTo ls alpha t e k a) k := by
  unfold sweepUpTo
  rw [List.range_succ, List.foldl_append]
  rfl

lemma sweepUpTo_length (ls : List ℝ) (alpha : ℝ) (t : ℝ × ℝ) (e : ℝ)
    (k : Nat) (a : List ℝ) :
    (sweepUpTo ls alpha t e k a).length = a.length := by
  induction k with
  | zero => rfl
  | succ k ih => rw [sweepUpTo_succ, gradUpdate_length, ih]

lemma gradSweep_length (ls : List ℝ) (alpha : ℝ) (t : ℝ × ℝ) (e : ℝ)
    (a : List ℝ) : (gradSweep ls alpha t e a).length = a.length :=
  sweepUpTo_length ls alpha t e ls.length a

lemma sweepUpTo_getD_of_le (ls : List ℝ) (alpha : ℝ) (t : ℝ × ℝ) (e : ℝ)
    (k j : Nat) (a : List ℝ) (hkj : k ≤ j) :
    (sweepUpTo ls alpha t e k a).getD j 0 = a.getD j 0 := by
  induction k with
  | zero => rfl
  | succ k ih =>
      rw [sweepUpTo_succ,
        gradUpdate_getD_ne _ _ _ _ _ _ _ (Nat.ne_of_lt hkj),
        ih (Nat.le_of_succ_le hkj)]

lemma sweepUpTo_getD_stable (ls : List ℝ) (alpha : ℝ) (t : ℝ × ℝ) (e : ℝ)
    (i m : Nat) (a : List ℝ) (him : i + 1 ≤ m) :
    (sweepUpTo ls alpha t e m a).getD i 0
      = (sweepUpTo ls alpha t e (i + 1) a).getD i 0 := by
  obtain ⟨p, rfl⟩ := Nat.exists_eq_add_of_le him
  induction p with
  | zero => rfl
  | succ p ih =>
      have hne : i + 1 + p ≠ i := Nat.ne_of_gt (by omega)
      rw [show i + 1 + (p + 1) = (i + 1 + p) + 1 by omega, sweepUpTo_succ,
        gradUpdate_getD_ne _ _ _ _ _ _ _ hne, ih (by omega)]

lemma sweepUpTo_getD_step (ls : List ℝ) (alpha : ℝ) (t : ℝ × ℝ) (e : ℝ)
    (i : Nat) (a : List ℝ) (hi : i < a.length) :
    (sweepUpTo ls alpha t e (i + 1) a).getD i 0
      = a.getD i 0 - alpha * gradOfJoint ls alpha t e a i := by
  rw [sweepUpTo_succ]
  simp only [gradUpdate, gradOfJoint]
  rw [getD_set_self _ _ _ (by rw [sweepUpTo_length]; exact hi),
    sweepUpTo_getD_of_le _ _ _ _ _ _ _ (Nat.le_refl i)]

lemma gradSweep_getD (ls : List ℝ) (alpha : ℝ) (t : ℝ × ℝ) (e : ℝ)
    (a : List ℝ) (i : Nat) (hi : i < ls.length) (hlen : a.length = ls.length) :
    (gradSweep ls alpha t e a).getD i 0
      = a.getD i 0 - alpha * gradOfJoint ls alpha t e a i := by
  unfold gradSweep
  rw [sweepUpTo_getD_stable _ _ _ _ _ _ _ (Nat.succ_le_of_lt hi),
    sweepUpTo_getD_step _ _ _ _ _ _ (by omega)]

lemma ikLoop_zero (ls : List ℝ) (alpha : ℝ) (t : ℝ × ℝ) (a : List ℝ)
    (g : Bool) : ikLoop ls alpha t 0 a g = (a, g) := rfl

lemma ikLoop_succ (ls : List ℝ) (alpha : ℝ) (t : ℝ × ℝ) (fuel : Nat)
    (a : List ℝ) (g : Bool) :
    ikLoop ls alpha t (fuel + 1) a g
      = if norm2 (psub t (endEffector ls a)) < 1e-1 then (a, true)
        else ikLoop ls alpha t fuel
          (gradSweep ls alpha t (norm2 (psub t (endEffector ls a))) a) false :=
  rfl

lemma ikLoop_angles_length (ls : List ℝ) (alpha : ℝ) (t : ℝ × ℝ) :
    ∀ (fuel : Nat) (a : List ℝ) (g : Bool),
      ((ikLoop ls alpha t fuel a g).1).length = a.length := by
  intro fuel
  induction fuel with
  | zero => intro a g; rfl
  | succ fuel ih =>
      intro a g
      rw [ikLoop_succ]
      split_ifs with h
      · rfl
      · rw [ih, gradSweep_length]

lemma inverse_kinematics_angles_length (targ : Option (ℝ × ℝ))
    (a ls : List ℝ) (g : Bool) (n : Nat) :
    ((inverse_kinematics targ a ls g n).1).length = a.length := by
  cases targ with
  | none => rfl
  | some t =>
      show ((ikLoop (optimize_link_lengths n t) 0.1 t 100 a g).1).length = a.length
      rw [ikLoop_angles_length]

lemma forward_kinematics_getD (lengths angles : List ℝ) (k : Nat)
    (hk : k ≤ lengths.length) :
    (forward_kinematics lengths angles).getD k (0, 0)
      = fkPos lengths angles k := by
  have hk2 : k < (forward_kinematics lengths angles).length := by
    simp [forward_kinematics]
    omega
  rw [List.getD_eq_getElem _ _ hk2]
  simp [forward_kinematics]

lemma replicate_zero_getD (n k : Nat) :
    (List.replicate n (0 : ℝ)).getD k 0 = 0 := by
  by_cases h : k < n
  · rw [List.getD_eq_getElem _ _ (by simpa using h)]
    simp
  · rw [List.getD_eq_default _ _ (by simpa using Nat.le_of_not_lt h)]

lemma fkPos_zero_lengths (n : Nat) (a : List ℝ) :
    ∀ k, fkPos (List.replicate n 0) a k = (0, 0) := by
  intro k
  induction k with
  | zero => rfl
  | succ k ih => simp [fkPos, ih, replicate_zero_getD]

/-! Claim theorems. -/

/-- C2: for every joint count `N ∈ {2,3,4,5}` and angle vector of length
`N` (with link lengths of length `N`), forward kinematics returns `N + 1`
positions, the first is `(0,0)`, and position `k+1` equals position `k`
plus the `k`-th link length times `(cos, sin)` of the sum of angles
`0..k`. -/
theorem c2_forward_kinematics (n : Nat) (lengths angles : List ℝ)
    (hn : n = 2 ∨ n = 3 ∨ n = 4 ∨ n = 5)
    (hl : lengths.length = n) (ha : angles.length = n) :
    (forward_kinematics lengths angles).length = n + 1 ∧
    (forward_kinematics lengths angles).getD 0 (0, 0) = (0, 0) ∧
    ∀ k < n, (forward_kinematics lengths angles).getD (k + 1) (0, 0)
      = (((forward_kinematics lengths angles).getD k (0, 0)).1
           + lengths.getD k 0 * Real.cos ((angles.take (k + 1)).sum),
         ((forward_kinematics lengths angles).getD k (0, 0)).2
           + lengths.getD k 0 * Real.sin ((angles.take (k + 1)).sum)) := by
  refine ⟨by simp [forward_kinematics, hl], ?_, ?_⟩
  · rw [forward_kinematics_getD _ _ 0 (Nat.zero_le _)]
    rfl
  · intro k hk
    rw [forward_kinematics_getD _ _ (k + 1) (by omega),
      forward_kinematics_getD _ _ k (by omega)]
    rfl

/-- Witness for C2 at `N = 2`, link lengths `[2, 2]`, angles `[0, 0]`. -/
theorem c2_forward_kinematics_witness :
    (forward_kinematics [2, 2] [0, 0]).length = 2 + 1 ∧
    (forward_kinematics [2, 2] [0, 0]).getD 0 (0, 0) = (0, 0) ∧
    ∀ k < 2, (forward_kinematics [2, 2] [0, 0]).getD (k + 1) (0, 0)
      = (((forward_kinematics [2, 2] [0, 0]).getD k (0, 0)).1
           + ([(2 : ℝ), 2].getD k 0)
             * Real.cos ((([(0 : ℝ), 0]).take (k + 1)).sum),
         ((forward_kinematics [2, 2] [0, 0]).getD k (0, 0)).2
           + ([(2 : ℝ), 2].getD k 0)
             * Real.sin ((([(0 : ℝ), 0]).take (k + 1)).sum)) :=
  c2_forward_kinematics 2 [2, 2] [0, 0] (Or.inl rfl) (by simp) (by simp)

/-- C3: for every target `T` and (positive) joint count `N`, link-length
adaptation returns exactly `N` values, all equal to `‖T‖ / N`, and their
sum is exactly `‖T‖` (the model is exact real arithmetic, so the
floating-point tolerance of the claim is met exactly). -/
theorem c3_optimize_link_lengths (n : Nat) (t : ℝ × ℝ) (hn : 0 < n) :
    (optimize_link_lengths n t).length = n ∧
    (∀ x ∈ optimize_link_lengths n t, x = norm2 t / n) ∧
    (optimize_link_lengths n t).sum = norm2 t := by
  refine ⟨by simp [optimize_link_lengths], ?_, ?_⟩
  · intro x hx
    exact List.eq_of_mem_replicate hx
  · have hℝ : (n : ℝ) ≠ 0 := Nat.cast_ne_zero.mpr (Nat.pos_iff_ne_zero.mp hn)
    simp [optimize_link_lengths, List.sum_replicate, nsmul_eq_mul]
    field_simp

/-- Witness for C3 at `T = (3, 4)`, `N = 2`. -/
theorem c3_optimize_link_lengths_witness :
    (optimize_link_lengths 2 (3, 4)).length = 2 ∧
    (∀ x ∈ optimize_link_lengths 2 (3, 4), x = norm2 (3, 4) / 2) ∧
    (optimize_link_lengths 2 (3, 4)).sum = norm2 (3, 4) :=
  c3_optimize_link_lengths 2 (3, 4) (by omega)

/-- C6: with an absent target, `inverse_kinematics` returns the angle
sequence unchanged, does not recompute the link lengths, and does not
change `reached_target`; no error path exists. -/
theorem c6_none_target_noop (a ls : List ℝ) (g : Bool) (n : Nat) :
    inverse_kinematics none a ls g n = (a, ls, g) := rfl

/-- C8: for target exactly `(0, 0)` and any joint count `N ∈ {2,3,4,5}`,
link-length adaptation returns all-zero link lengths and forward kinematics
under those zero link lengths returns all `N + 1` positions equal to
`(0, 0)` (for any angle vector); no error is raised anywhere. -/
theorem c8_origin_target (n : Nat) (a : List ℝ)
    (hn : n = 2 ∨ n = 3 ∨ n = 4 ∨ n = 5) :
    optimize_link_lengths n (0, 0) = List.replicate n 0 ∧
    forward_kinematics (List.replicate n 0) a
      = List.replicate (n + 1) (0, 0) := by
  constructor
  · simp [optimize_link_lengths, norm2]
  · apply List.ext_getElem
    · simp [forward_kinematics]
    · intro i h1 h2
      have hi : i < n + 1 := by simpa [forward_kinematics] using h1
      simp [forward_kinematics, fkPos_zero_lengths]

/-- Witness for C8 at `N = 2`, angles `[1, 1]`. -/
theorem c8_origin_target_witness :
    optimize_link_lengths 2 (0, 0) = List.replicate 2 0 ∧
    forward_kinematics (List.replicate 2 0) [1, 1]
      = List.replicate (2 + 1) (0, 0) :=
  c8_origin_target 2 [1, 1] (Or.inl rfl)

/-- C10: the solver preserves the length of the angle sequence: for every
input angle vector whose length equals the joint count, the returned
vector has the same length. -/
theorem c10_angles_length_preserved (targ : Option (ℝ × ℝ))
    (a ls : List ℝ) (g : Bool) (n : Nat) (ha : a.length = n) :
    ((inverse_kinematics targ a ls g n).1).length = a.length :=
  inverse_kinematics_angles_length targ a ls g n

/-- Witness for C10 at target `(1, 0)`, angles `[0, 0]`, joint count 2. -/
theorem c10_angles_length_preserved_witness :
    ((inverse_kinematics (some (1, 0)) [0, 0] [2, 2] false 2).1).length
      = ([(0 : ℝ), 0]).length :=
  c10_angles_length_preserved (some (1, 0)) [0, 0] [2, 2] false 2 (by simp)

/-- C9: the `0.01` perturbation is applied only to a copy and never
persists: after one joint sweep of the solver, the angle list keeps its
length and entry `i` equals the original entry `i` minus `alpha` times the
finite-difference gradient estimate for joint `i` (no other modification
reaches the returned sequence). -/
theorem c9_frame_update (ls : List ℝ) (alpha : ℝ) (t : ℝ × ℝ) (e : ℝ)
    (a : List ℝ) (i : Nat) (hi : i < ls.length) (hlen : a.length = ls.length) :
    (gradSweep ls alpha t e a).length = a.length ∧
    (gradSweep ls alpha t e a).getD i 0
      = a.getD i 0 - alpha * gradOfJoint ls alpha t e a i :=
  ⟨gradSweep_length ls alpha t e a, gradSweep_getD ls alpha t e a i hi hlen⟩

lemma ikLoop_flag_true (ls : List ℝ) (alpha : ℝ) (t : ℝ × ℝ) :
    ∀ (fuel : Nat) (a : List ℝ) (g : Bool),
      (ikLoop ls alpha t fuel a g).2 = true →
      (fuel = 0 ∧ g = true) ∨
        norm2 (psub t (endEffector ls (ikLoop ls alpha t fuel a g).1)) < 1e-1 := by
  intro fuel
  induction fuel with
  | zero => intro a g hg; exact Or.inl ⟨rfl, hg⟩
  | succ fuel ih =>
      intro a g hg
      rw [ikLoop_succ] at hg ⊢
      split_ifs at hg ⊢ with h
      · exact Or.inr h
      · rcases ih _ false hg with h0 | hlt
        · exact absurd h0.2 (by simp)
        · exact Or.inr hlt

lemma opt_unit : optimize_link_lengths 2 ((1 : ℝ), 0) = [1 / 2, 1 / 2] := by
  simp [optimize_link_lengths, norm2]

lemma ee_unit : endEffector [(1 : ℝ) / 2, 1 / 2] [0, 0] = (1, 0) := by
  show fkPos [(1 : ℝ) / 2, 1 / 2] [0, 0] 2 = (1, 0)
  rw [show (2 : Nat) = 1 + 1 from rfl]
  simp [fkPos]
  norm_num

lemma dist_unit :
    norm2 (psub (1, 0) (endEffector (optimize_link_lengths 2 (1, 0)) [0, 0]))
      < 1e-1 := by
  rw [opt_unit, ee_unit]
  simp [norm2, psub]
  norm_num

/-- C4: once the flag is reached and the target is unchanged (so the
end-effector-to-target distance under the recomputed link lengths is below
the tolerance), calling the solver again returns the very same angles,
link lengths and flag. -/
theorem c4_idempotent_after_reached (t : ℝ × ℝ) (a : List ℝ) (n : Nat)
    (h : norm2 (psub t (endEffector (optimize_link_lengths n t) a)) < 1e-1) :
    inverse_kinematics (some t) a (optimize_link_lengths n t) true n
      = (a, optimize_link_lengths n t, true) := by
  have hloop : ikLoop (optimize_link_lengths n t) 0.1 t 100 a true = (a, true) := by
    rw [show (100 : Nat) = 99 + 1 from rfl, ikLoop_succ, if_pos h]
  show ((ikLoop (optimize_link_lengths n t) 0.1 t 100 a true).1,
      optimize_link_lengths n t,
      (ikLoop (optimize_link_lengths n t) 0.1 t 100 a true).2) = _
  rw [hloop]

/-- Witness for C4 at target `(1, 0)`, angles `[0, 0]`, joint count 2. -/
theorem c4_idempotent_after_reached_witness :
    inverse_kinematics (some (1, 0)) [0, 0] (optimize_link_lengths 2 (1, 0)) true 2
      = ([0, 0], optimize_link_lengths 2 (1, 0), true) :=
  c4_idempotent_after_reached (1, 0) [0, 0] 2 dist_unit

/-- C5: (i) whenever the distance at the start of an iteration is below the
tolerance `1e-1`, the loop sets the flag and returns the angles unchanged,
skipping all remaining iterations; (ii) whenever the solver returns with
the flag true, the returned angles place the end effector (under the
returned link lengths) within `1e-1` of the target. -/
theorem c5_early_exit_within_tolerance (ls : List ℝ) (alpha : ℝ)
    (t : ℝ × ℝ) (fuel : Nat) (a : List ℝ) (g : Bool)
    (a2 ls2 : List ℝ) (g2 : Bool) (n : Nat) :
    (norm2 (psub t (endEffector ls a)) < 1e-1 →
      ikLoop ls alpha t (fuel + 1) a g = (a, true)) ∧
    ((inverse_kinematics (some t) a2 ls2 g2 n).2.2 = true →
      norm2 (psub t
        (endEffector (inverse_kinematics (some t) a2 ls2 g2 n).2.1
          (inverse_kinematics (some t) a2 ls2 g2 n).1)) < 1e-1) := by
  constructor
  · intro h
    rw [ikLoop_succ, if_pos h]
  · intro h
    have hrw : inverse_kinematics (some t) a2 ls2 g2 n
        = ((ikLoop (optimize_link_lengths n t) 0.1 t 100 a2 g2).1,
           optimize_link_lengths n t,
           (ikLoop (optimize_link_lengths n t) 0.1 t 100 a2 g2).2) := rfl
    rw [hrw] at h ⊢
    rcases ikLoop_flag_true (optimize_link_lengths n t) 0.1 t 100 a2 g2 h with
      h0 | hlt
    · exact absurd h0.1 (by norm_num)
    · exact hlt

/-- Witness for C5: at target `(1, 0)`, angles `[0, 0]`, two joints, the
first iteration exits immediately and the returned configuration is within
tolerance. -/
theorem c5_early_exit_within_tolerance_witness :
    ikLoop [1 / 2, 1 / 2] 0.1 (1, 0) (0 + 1) [0, 0] false = ([0, 0], true) ∧
    norm2 (psub (1, 0)
      (endEffector (inverse_kinematics (some (1, 0)) [0, 0] [2, 2] false 2).2.1
        (inverse_kinematics (some (1, 0)) [0, 0] [2, 2] false 2).1)) < 1e-1 := by
  have h1 :
      norm2 (psub ((1 : ℝ), (0 : ℝ)) (endEffector [1 / 2, 1 / 2] [0, 0])) < 1e-1 := by
    rw [ee_unit]
    simp [norm2, psub]
    norm_num
  have hflag : (inverse_kinematics (some (1, 0)) [0, 0] [2, 2] false 2).2.2 = true := by
    show (ikLoop (optimize_link_lengths 2 (1, 0)) 0.1 (1, 0) 100 [0, 0] false).2 = true
    rw [show (100 : Nat) = 99 + 1 from rfl, ikLoop_succ, if_pos dist_unit]
  exact ⟨(c5_early_exit_within_tolerance [1 / 2, 1 / 2] 0.1 (1, 0) 0 [0, 0] false
      [0, 0] [2, 2] false 2).1 h1,
    (c5_early_exit_within_tolerance [1 / 2, 1 / 2] 0.1 (1, 0) 0 [0, 0] false
      [0, 0] [2, 2] false 2).2 hflag⟩

lemma update_num_links_eval (val : Nat) :
    update_num_links val
      = { num_links := val
          link_lengths := (inverse_kinematics (some (3, 1))
            (List.replicate val (Real.pi / 4)) (List.replicate val 2) false val).2.1
          angles := (inverse_kinematics (some (3, 1))
            (List.replicate val (Real.pi / 4)) (List.replicate val 2) false val).1
          target := some (3, 1)
          reached_target := (inverse_kinematics (some (3, 1))
            (List.replicate val (Real.pi / 4)) (List.replicate val 2) false val).2.2
          movement_count := 1 } := by
  unfold update_num_links update
  rw [if_neg (by simp)]

/-- C7 counterexample: the state after the joint-count change handler runs
for 4 joints does not satisfy the claimed conjunction, because
`movement_count` is 1, not 0 — the handler resets it to 0 but then invokes
one solver tick, which increments it. -/
theorem c7_counterexample :
    ¬(((update_num_links 4).angles).length = 4 ∧
      (∃ c, (update_num_links 4).link_lengths = List.replicate 4 c) ∧
      (update_num_links 4).movement_count = 0) := by
  intro h
  have h0 := h.2.2
  rw [update_num_links_eval] at h0
  simp at h0

/-- C7 (amended): after the joint-count change handler runs for a change to
4 joints, the state has exactly 4 angles, link lengths of exactly 4 equal
values, the default target `(3, 1)`, and `movement_count` equal to 1 (reset
to 0, then incremented by the one solver tick the handler invokes). -/
theorem c7_joint_count_change :
    ((update_num_links 4).angles).length = 4 ∧
    (∃ c, (update_num_links 4).link_lengths = List.replicate 4 c) ∧
    (update_num_links 4).movement_count = 1 ∧
    (update_num_links 4).target = some (3, 1) := by
  rw [update_num_links_eval]
  refine ⟨?_, ⟨norm2 (3, 1) / 4, rfl⟩, rfl, rfl⟩
  show ((inverse_kinematics (some (3, 1)) (List.replicate 4 (Real.pi / 4))
      (List.replicate 4 2) false 4).1).length = 4
  rw [inverse_kinematics_angles_length]
  simp

/-- C1 (amended): in each non-converged iteration the joints are processed
sequentially: when joint `i` is updated, joints before `i` already hold
their updated values and joints after `i` their start-of-iteration values;
joint `i` is perturbed by `0.01` on a copy of that intermediate vector, the
derivative estimate divides the perturbed-distance difference against the
start-of-iteration distance by `0.01`, and joint `i` is decreased by
`alpha` (0.1 in the solver) times the estimate. -/
theorem c1_sequential_sweep (ls : List ℝ) (alpha : ℝ) (t : ℝ × ℝ) (e : ℝ)
    (a : List ℝ) (hlen : a.length = ls.length) :
    gradSweep ls alpha t e a = seqSweep ls alpha t e a := by
  apply List.ext_getElem
  · rw [gradSweep_length]
    simp [seqSweep]
  · intro i h1 h2
    have hi : i < a.length := by rwa [gradSweep_length] at h1
    have hils : i < ls.length := by omega
    rw [← List.getD_eq_getElem _ (0 : ℝ) h1,
      gradSweep_getD ls alpha t e a i hils hlen]
    simp only [seqSweep, List.getElem_map, List.getElem_range, gradOfJoint]
    rw [sweepUpTo_getD_of_le _ _ _ _ _ _ _ (Nat.le_refl i)]

/-- Witness for the amended C1 at `ls = [1, 1]`, `a = [0, 0]`. -/
theorem c1_sequential_sweep_witness :
    gradSweep [1, 1] 0.1 (0, 0) 0 [0, 0] = seqSweep [1, 1] 0.1 (0, 0) 0 [0, 0] :=
  c1_sequential_sweep [1, 1] 0.1 (0, 0) 0 [0, 0] (by simp)

/-! Concrete evaluation lemmas for the C1 counterexample: solver state
with two joints, target `(1, 0)` (so link lengths `[1/2, 1/2]`), angles
`[π, 0]`, start-of-iteration distance 2. -/

lemma ee_half_half (x y : ℝ) :
    endEffector [(1 : ℝ) / 2, 1 / 2] [x, y]
      = (1 / 2 * Real.cos x + 1 / 2 * Real.cos (x + y),
         1 / 2 * Real.sin x + 1 / 2 * Real.sin (x + y)) := by
  show fkPos [(1 : ℝ) / 2, 1 / 2] [x, y] 2 = _
  rw [show (2 : Nat) = 1 + 1 from rfl]
  simp [fkPos]

lemma gu0 (ls : List ℝ) (alpha : ℝ) (t : ℝ × ℝ) (e u v : ℝ) :
    gradUpdate ls alpha t e [u, v] 0
      = [u - alpha * ((norm2 (psub (endEffector ls [u + 0.01, v]) t) - e) / 0.01),
         v] := by
  simp [gradUpdate]

lemma gu1 (ls : List ℝ) (alpha : ℝ) (t : ℝ × ℝ) (e u v : ℝ) :
    gradUpdate ls alpha t e [u, v] 1
      = [u,
         v - alpha * ((norm2 (psub (endEffector ls [u, v + 0.01]) t) - e) / 0.01)] := by
  simp [gradUpdate]

lemma jacobi_two (ls : List ℝ) (alpha : ℝ) (t : ℝ × ℝ) (e u v : ℝ) :
    jacobiSweep ls alpha t e [u, v]
      = [u - alpha * ((norm2 (psub (endEffector ls [u + 0.01, v]) t) - e) / 0.01),
         v - alpha * ((norm2 (psub (endEffector ls [u, v + 0.01]) t) - e) / 0.01)] := by
  simp [jacobiSweep, show List.range 2 = [0, 1] from rfl]

lemma rad0 :
    norm2 (psub (endEffector [(1 : ℝ) / 2, 1 / 2] [Real.pi + 0.01, 0]) (1, 0))
      = Real.sqrt (2 + 2 * Real.cos 0.01) := by
  rw [ee_half_half]
  simp [norm2, psub, Real.cos_add, Real.sin_add]
  congr 1
  linear_combination (Real.sin_sq_add_cos_sq 0.01)

lemma radJ :
    norm2 (psub (endEffector [(1 : ℝ) / 2, 1 / 2] [Real.pi, 0.01]) (1, 0))
      = Real.sqrt (5 / 2 + 3 / 2 * Real.cos 0.01) := by
  rw [ee_half_half]
  simp [norm2, psub, Real.cos_add, Real.sin_add]
  congr 1
  linear_combination (1 / 4) * (Real.sin_sq_add_cos_sq 0.01)

lemma radC (x : ℝ) :
    norm2 (psub (endEffector [(1 : ℝ) / 2, 1 / 2] [Real.pi + x, 0.01]) (1, 0))
      = Real.sqrt (3 / 2 + Real.cos 0.01 / 2 + Real.cos x + Real.cos (x + 0.01)) := by
  rw [ee_half_half]
  simp [norm2, psub, Real.cos_add, Real.sin_add]
  congr 1
  linear_combination ((1 + Real.cos 0.01) ^ 2 + Real.sin 0.01 ^ 2) / 4
      * (Real.sin_sq_add_cos_sq x)
    + (1 / 4) * (Real.sin_sq_add_cos_sq 0.01)

lemma cos001_lt_one : Real.cos 0.01 < 1 := by
  have h := Real.cos_lt_cos_of_nonneg_of_le_pi (le_refl (0 : ℝ))
    (by linarith [Real.pi_gt_three] : (0.01 : ℝ) ≤ Real.pi)
    (by norm_num : (0 : ℝ) < 0.01)
  simpa using h

lemma cos001_ge : (0.99995 : ℝ) ≤ Real.cos 0.01 := by
  have h : 1 - (0.01 : ℝ) ^ 2 / 2 ≤ Real.cos 0.01 := Real.one_sub_sq_div_two_le_cos
  nlinarith

lemma sqrtS_lt_two : Real.sqrt (2 + 2 * Real.cos 0.01) < 2 :=
  (Real.sqrt_lt' (by norm_num : (0 : ℝ) < 2)).mpr
    (by nlinarith [cos001_lt_one])

lemma sqrtS_gt : (1.99 : ℝ) < Real.sqrt (2 + 2 * Real.cos 0.01) :=
  (Real.lt_sqrt (by norm_num : (0 : ℝ) ≤ 1.99)).mpr
    (by nlinarith [cos001_ge])

/-- The (positive) amount by which the solver's in-place update moves
joint 0 in the counterexample state before joint 1 is processed. -/
def firstJointShift : ℝ := 10 * (2 - Real.sqrt (2 + 2 * Real.cos 0.01))

lemma firstJointShift_pos : 0 < firstJointShift := by
  have := sqrtS_lt_two
  unfold firstJointShift
  linarith

lemma firstJointShift_le : firstJointShift ≤ 0.1 := by
  have := sqrtS_gt
  unfold firstJointShift
  linarith

/-- C1 counterexample: at the solver state with two joints, target
`(1, 0)` (adapted link lengths `[1/2, 1/2]`), start-of-iteration angles
`[π, 0]` and start-of-iteration distance 2 (not converged, since
`1e-1 ≤ 2`), the iteration the code performs differs from the
Jacobi-style iteration the claim describes, in which every joint is
perturbed around the start-of-iteration angle vector: the code perturbs
joint 1 around the already-updated joint 0. -/
theorem c1_counterexample :
    optimize_link_lengths 2 (1, 0) = [1 / 2, 1 / 2] ∧
    norm2 (psub (1, 0) (endEffector [1 / 2, 1 / 2] [Real.pi, 0])) = 2 ∧
    (1e-1 : ℝ) ≤ 2 ∧
    gradSweep [1 / 2, 1 / 2] 0.1 (1, 0) 2 [Real.pi, 0]
      ≠ jacobiSweep [1 / 2, 1 / 2] 0.1 (1, 0) 2 [Real.pi, 0] := by
  refine ⟨opt_unit, ?_, by norm_num, ?_⟩
  · rw [ee_half_half]
    simp [norm2, psub]
    rw [show ((1 : ℝ) - (-2⁻¹ + -2⁻¹)) ^ 2 = 2 ^ 2 by norm_num,
      Real.sqrt_sq (by norm_num : (0 : ℝ) ≤ 2)]
  · intro heq
    have hsw : gradSweep [(1 : ℝ) / 2, 1 / 2] 0.1 (1, 0) 2 [Real.pi, 0]
        = gradUpdate [(1 : ℝ) / 2, 1 / 2] 0.1 (1, 0) 2
            (gradUpdate [(1 : ℝ) / 2, 1 / 2] 0.1 (1, 0) 2 [Real.pi, 0] 0) 1 := by
      show sweepUpTo [(1 : ℝ) / 2, 1 / 2] 0.1 (1, 0) 2
          (List.length [(1 : ℝ) / 2, 1 / 2]) [Real.pi, 0] = _
      rw [show List.length [(1 : ℝ) / 2, 1 / 2] = 1 + 1 from rfl, sweepUpTo_succ,
        show (1 : Nat) = 0 + 1 from rfl, sweepUpTo_succ, sweepUpTo_zero]
    have hg0 : gradUpdate [(1 : ℝ) / 2, 1 / 2] 0.1 (1, 0) 2 [Real.pi, 0] 0
        = [Real.pi + firstJointShift, 0] := by
      rw [gu0, rad0]
      unfold firstJointShift
      congr 1
      ring
    have hg1 : gradUpdate [(1 : ℝ) / 2, 1 / 2] 0.1 (1, 0) 2
          [Real.pi + firstJointShift, 0] 1
        = [Real.pi + firstJointShift,
           0 - 0.1 * ((Real.sqrt (3 / 2 + Real.cos 0.01 / 2
               + Real.cos firstJointShift
               + Real.cos (firstJointShift + 0.01)) - 2) / 0.01)] := by
      rw [gu1, show ((0 : ℝ) + 0.01) = 0.01 by norm_num, radC]
    have hj : jacobiSweep [(1 : ℝ) / 2, 1 / 2] 0.1 (1, 0) 2 [Real.pi, 0]
        = [Real.pi - 0.1 * ((Real.sqrt (2 + 2 * Real.cos 0.01) - 2) / 0.01),
           0 - 0.1 * ((Real.sqrt (5 / 2 + 3 / 2 * Real.cos 0.01) - 2) / 0.01)] := by
      rw [jacobi_two, show ((0 : ℝ) + 0.01) = 0.01 by norm_num, rad0, radJ]
    rw [hsw, hg0, hg1, hj] at heq
    have h2 := congrArg (fun l => l.getD 1 0) heq
    simp only [List.getD_cons_succ, List.getD_cons_zero] at h2
    have hE1 : Real.cos firstJointShift < 1 := by
      have h := Real.cos_lt_cos_of_nonneg_of_le_pi (le_refl (0 : ℝ))
        (by linarith [Real.pi_gt_three, firstJointShift_le] :
          firstJointShift ≤ Real.pi)
        firstJointShift_pos
      simpa using h
    have hE2 : Real.cos (firstJointShift + 0.01) < Real.cos 0.01 := by
      have h := Real.cos_lt_cos_of_nonneg_of_le_pi (by norm_num : (0 : ℝ) ≤ 0.01)
        (by linarith [Real.pi_gt_three, firstJointShift_le] :
          firstJointShift + 0.01 ≤ Real.pi)
        (by linarith [firstJointShift_pos] : (0.01 : ℝ) < firstJointShift + 0.01)
      exact h
    have hcE : (0.9 : ℝ) ≤ Real.cos firstJointShift := by
      have h : 1 - firstJointShift ^ 2 / 2 ≤ Real.cos firstJointShift :=
        Real.one_sub_sq_div_two_le_cos
      nlinarith [firstJointShift_pos, firstJointShift_le]
    have hcE2 : (0.9 : ℝ) ≤ Real.cos (firstJointShift + 0.01) := by
      have h : 1 - (firstJointShift + 0.01) ^ 2 / 2
          ≤ Real.cos (firstJointShift + 0.01) :=
        Real.one_sub_sq_div_two_le_cos
      nlinarith [firstJointShift_pos, firstJointShift_le]
    have hD0 : (0 : ℝ) ≤ 3 / 2 + Real.cos 0.01 / 2 + Real.cos firstJointShift
        + Real.cos (firstJointShift + 0.01) := by
      nlinarith [cos001_ge]
    have hDlt : 3 / 2 + Real.cos 0.01 / 2 + Real.cos firstJointShift
        + Real.cos (firstJointShift + 0.01) < 5 / 2 + 3 / 2 * Real.cos 0.01 := by
      linarith
    have hsq := Real.sqrt_lt_sqrt hD0 hDlt
    have hx : ∀ x : ℝ, (0 : ℝ) - 0.1 * ((x - 2) / 0.01) = 20 - 10 * x := by
      intro x
      rw [div_eq_mul_inv]
      norm_num
      ring
    rw [hx, hx] at h2
    have : Real.sqrt (3 / 2 + Real.cos 0.01 / 2 + Real.cos firstJointShift
          + Real.cos (firstJointShift + 0.01))
        = Real.sqrt (5 / 2 + 3 / 2 * Real.cos 0.01) := by
      linarith
    exact absurd this (ne_of_lt hsq)

/-- Witness for C9 at `ls = [1, 1]`, `a = [0, 0]`, joint 0. -/
theorem c9_frame_update_witness :
    (gradSweep [1, 1] 0.1 (0, 0) 0 [0, 0]).length = ([(0 : ℝ), 0]).length ∧
    (gradSweep [1, 1] 0.1 (0, 0) 0 [0, 0]).getD 0 0
      = ([(0 : ℝ), 0]).getD 0 0 - 0.1 * gradOfJoint [1, 1] 0.1 (0, 0) 0 [0, 0] 0 :=
  c9_frame_update [1, 1] 0.1 (0, 0) 0 [0, 0] 0 (by simp) (by simp)

end
